import Mathlib

/-!
Verification development for the `get_fasta` streaming FASTA record extractor.

The source program reads a stream of FASTA records, each a pair of a header
label and a list of content lines, and selects records by exact label,
regular-expression label, positional index or index range.  We embed the
record stream as a `List Rec`, a matcher as a boolean predicate on labels,
and each search strategy's `scan` method as a function that returns the
list of records handed to the writer, the boolean result, and (where a
strategy can stop early) the unconsumed remainder of the stream.
-/

/-- A FASTA record as produced by the external reader: a header label and
its content lines. -/
abbrev Rec : Type := String × List String

/-- A matcher is a predicate over a label string. -/
abbrev Matcher : Type := String → Bool

/-- Function `identity_filter` from the source: passes the matcher through unchanged. -/
def identity_filter (m : Matcher) : Matcher := m

/-- First index of a space or tab character in a list of characters,
embedding the separator-pattern search performed by `id_filter`. -/
def sepSearch : List Char → Option Nat
  | [] => none
  | c :: cs => if c == ' ' || c == '\t' then some 0 else (sepSearch cs).map (· + 1)

/-- Function `id_filter` from the source: truncates the label at the first space or
tab before delegating to the wrapped matcher. -/
def id_filter (m : Matcher) : Matcher := fun value =>
  match sepSearch value.data with
  | some i => m (String.mk (value.data.take i))
  | none => m value

/-- Matcher `ExactMatch` from the source: true iff the label equals the stored text. -/
def ExactMatch (text : String) : Matcher := fun value => text == value

/-- Word characters of the (ASCII) regular-expression class `\w`:
letters, digits and underscore. -/
def isWordChar (c : Char) : Bool := c.isAlphanum || c == '_'

/-- The abstract form of the fragment of regular expressions used by the
program: literals, alternation, concatenation, the anchors `^` and `$`,
and the non-word character class `\W`. -/
inductive Rx : Type where
  | eps : Rx
  | caret : Rx
  | dollar : Rx
  | nonword : Rx
  | lit : Char → Rx
  | alt : Rx → Rx → Rx
  | seq : Rx → Rx → Rx
deriving DecidableEq

/-- Function `ends r s i` gives the list of positions at which a match of `r` starting
at position `i` of `s` can end. -/
def ends : Rx → List Char → Nat → List Nat
  | Rx.eps, _, i => [i]
  | Rx.caret, _, i => if i = 0 then [i] else []
  | Rx.dollar, s, i => if i = s.length then [i] else []
  | Rx.nonword, s, i =>
    match s.get? i with
    | some c => if isWordChar c then [] else [i + 1]
    | none => []
  | Rx.lit c, s, i =>
    match s.get? i with
    | some c2 => if c2 == c then [i + 1] else []
    | none => []
  | Rx.alt a b, s, i => ends a s i ++ ends b s i
  | Rx.seq a b, s, i => (ends a s i).flatMap (fun j => ends b s j)

/-- Search semantics of `re.search`: the pattern matches somewhere in the string,
i.e. a match may start at any position. -/
def rxSearch (r : Rx) (s : List Char) : Bool :=
  (List.range (s.length + 1)).any (fun i => !(ends r s i).isEmpty)

/-- Matcher `RegularExpressionMatch` from the source: true iff the compiled pattern
finds a match anywhere in the label. -/
def RegularExpressionMatch (r : Rx) : Matcher := fun value => rxSearch r value.data

/-- The regular expression matching a literal string. -/
def litStr (w : String) : Rx :=
  w.data.foldr (fun c acc => Rx.seq (Rx.lit c) acc) Rx.eps

/-- The pattern rewriting performed by `WordRegularExpressionMatch` in the
source: the interpolation of the pattern into the template, wrapping it as
the written-out form of caret-or-non-word, then the pattern, then
non-word-or-dollar. -/
def wordWrap (r : Rx) : Rx :=
  Rx.seq (Rx.alt Rx.caret Rx.nonword) (Rx.seq r (Rx.alt Rx.nonword Rx.dollar))

/-- Matcher `WordRegularExpressionMatch` from the source: not a distinct type but
`RegularExpressionMatch` built on the wrapped pattern. -/
def WordRegularExpressionMatch (r : Rx) : Matcher :=
  RegularExpressionMatch (wordWrap r)

/-- Strategy `SingleLabelSearch.scan` from the source, as a recursion over the
record stream.  `found` is the accumulator variable of the loop; the
result is the list of records written, the boolean result, and the
unconsumed remainder of the stream. -/
def slsGo (m : Matcher) (reuse_match : Bool) (found : Bool) :
    List Rec → List Rec × Bool × List Rec
  | [] => ([], found, [])
  | r :: rs =>
    if m r.1 then
      if reuse_match then
        (fun out => (r :: out.1, out.2.1, out.2.2)) (slsGo m reuse_match true rs)
      else
        ([r], true, rs)
    else
      slsGo m reuse_match found rs

/-- Entry point of `SingleLabelSearch.scan`: the loop starts with
`found = False`. -/
def SingleLabelSearch.scan (m : Matcher) (reuse_match : Bool) (stream : List Rec) :
    List Rec × Bool × List Rec :=
  slsGo m reuse_match false stream

/-- Index of the first matcher in the list accepting the label, embedding
the inner `for idx, match in enumerate(self.matches)` loop of
`MultipleLabelSearch.scan` together with its `break`. -/
def findMatch (label : String) : List Matcher → Option Nat
  | [] => none
  | m :: ms => if m label then some 0 else (findMatch label ms).map (· + 1)

/-- The four observables of one `MultipleLabelSearch.scan` run: the records
written, the boolean result `all(found)`, the unconsumed remainder of the
stream, and the matcher collection left alive at the end. -/
structure MOut : Type where
  written : List Rec
  found : Bool
  rest : List Rec
  live : List Matcher

/-- Strategy `MultipleLabelSearch.scan` from the source, as a recursion over the
record stream.  `ms` is the live matcher collection `self.matches` and
`fd` the parallel `found` list; on a match the first matching matcher
either records `found[idx] = True` (reuse mode) or is deleted together
with its `found` slot, and the loop breaks as soon as the live collection
is empty. -/
def mlsGo (reuse_matches : Bool) (ms : List Matcher) (fd : List Bool) :
    List Rec → MOut
  | [] => ⟨[], fd.all id, [], ms⟩
  | r :: rs =>
    match findMatch r.1 ms with
    | none =>
      if ms.isEmpty then ⟨[], fd.all id, rs, ms⟩
      else mlsGo reuse_matches ms fd rs
    | some i =>
      if reuse_matches then
        if ms.isEmpty then ⟨[r], (fd.set i true).all id, rs, ms⟩
        else
          (fun out => ⟨r :: out.written, out.found, out.rest, out.live⟩)
            (mlsGo reuse_matches ms (fd.set i true) rs)
      else
        if (ms.eraseIdx i).isEmpty then
          ⟨[r], (fd.eraseIdx i).all id, rs, ms.eraseIdx i⟩
        else
          (fun out => ⟨r :: out.written, out.found, out.rest, out.live⟩)
            (mlsGo reuse_matches (ms.eraseIdx i) (fd.eraseIdx i) rs)

/-- Entry point of `MultipleLabelSearch.scan`: `found` starts as
`[False] * len(self.matches)`. -/
def MultipleLabelSearch.scan (reuse_matches : Bool) (ms : List Matcher)
    (stream : List Rec) : MOut :=
  mlsGo reuse_matches ms (List.replicate ms.length false) stream

/-- Strategy `IndexSearch.scan` from the source: `pos` counts records from 0; the
record at position `idx` is written and the loop breaks; exhaustion of the
stream yields `False`. -/
def idxGo (idx : Nat) (pos : Nat) : List Rec → List Rec × Bool × List Rec
  | [] => ([], false, [])
  | r :: rs => if pos = idx then ([r], true, rs) else idxGo idx (pos + 1) rs

/-- Entry point of `IndexSearch.scan`: `pos` starts at 0. -/
def IndexSearch.scan (idx : Nat) (stream : List Rec) : List Rec × Bool × List Rec :=
  idxGo idx 0 stream

/-- Strategy `RangeSearch.scan` from the source, as a recursion over the record
stream.  `pos` starts at `-1` and is incremented at the top of the loop;
the loop breaks (returning `True`) once `pos >= stop`, writes whenever
`start is None or pos >= start`, and on exhaustion the for-else clause
returns `False` when the stream ended before `start` or before `stop-1`. -/
def rangeGo (start stop : Option Int) (pos : Int) : List Rec → List Rec × Bool
  | [] =>
    ([], if start.any (fun s => pos < s) then false
         else if stop.any (fun t => pos < t - 1) then false
         else true)
  | r :: rs =>
    if stop.any (fun t => pos + 1 ≥ t) then ([], true)
    else if start.all (fun s => pos + 1 ≥ s) then
      (fun out => (r :: out.1, out.2)) (rangeGo start stop (pos + 1) rs)
    else
      rangeGo start stop (pos + 1) rs

/-- Entry point of `RangeSearch.scan`: `pos` starts at `-1`. -/
def RangeSearch.scan (start stop : Option Int) (stream : List Rec) :
    List Rec × Bool :=
  rangeGo start stop (-1) stream

/-- Trailing line-terminator stripping applied to each line of a label
file.  Modelled from the spec: `safe_rstrip` lives in the external
`vfork.io.util` module, outside this repository's sources; the spec's
Label Set loads one label per line, so the terminator of the line is
removed. -/
def safe_rstrip (s : String) : String :=
  String.mk ((s.data.reverse.dropWhile (fun c => c == '\n' || c == '\r')).reverse)

/-- The loop of `load_labels` from the source: each line is stripped, a
label already present in the set aborts with a duplicate error, and after
the loop an empty set aborts with a no-label error.  The set is embedded
as the list of labels in insertion order. -/
def loadGo (acc : List String) : List String → Except String (List String)
  | [] =>
    if acc.length = 0 then Except.error ("No label in file")
    else Except.ok acc
  | line :: rest =>
    if acc.contains (safe_rstrip line) then
      Except.error ("Duplicated label in file")
    else
      loadGo (acc ++ [safe_rstrip line]) rest

/-- Entry point of `load_labels`: the set starts empty. -/
def load_labels (lines : List String) : Except String (List String) :=
  loadGo [] lines

/-- The failure condition at the end of `main`: the process exits with an
error iff the strategy's scan returned `False` and `--ignore-missing` was
not given. -/
def mainSignalsFailure (scan_result ignore_missing : Bool) : Bool :=
  !scan_result && !ignore_missing

lemma slsGo_reuse_eq (m : Matcher) :
    ∀ (s : List Rec) (found : Bool),
      slsGo m true found s =
        (s.filter (fun r => m r.1), found || s.any (fun r => m r.1), []) := by
  intro s
  induction s with
  | nil => intro found; simp [slsGo]
  | cons r rs ih =>
    intro found
    by_cases h : m r.1 <;>
      simp [slsGo, h, ih, List.filter_cons, List.any_cons]

lemma slsGo_exact_eq (m : Matcher) :
    ∀ (s : List Rec) (found : Bool),
      slsGo m false found s =
        ((s.dropWhile (fun r => !m r.1)).take 1,
         found || s.any (fun r => m r.1),
         (s.dropWhile (fun r => !m r.1)).tail) := by
  intro s
  induction s with
  | nil => intro found; simp [slsGo]
  | cons r rs ih =>
    intro found
    by_cases h : m r.1 <;>
      simp [slsGo, h, ih, List.any_cons, List.dropWhile_cons]

/-- Claim C3: for every stream and matcher, Single-Label Search returns
true iff at least one record's label matched; with `reuse_match = true` it
writes every matching record in stream order (and consumes the whole
stream), while with `reuse_match = false` it writes only the first
matching record and stops scanning immediately after it. -/
theorem single_label_search_characterization :
    ∀ (m : Matcher) (stream : List Rec),
      SingleLabelSearch.scan m true stream =
        (stream.filter (fun r => m r.1), stream.any (fun r => m r.1), []) ∧
      SingleLabelSearch.scan m false stream =
        ((stream.dropWhile (fun r => !m r.1)).take 1,
         stream.any (fun r => m r.1),
         (stream.dropWhile (fun r => !m r.1)).tail) := by
  intro m stream
  constructor
  · rw [SingleLabelSearch.scan, slsGo_reuse_eq]
    simp
  · rw [SingleLabelSearch.scan, slsGo_exact_eq]
    simp

lemma idxGo_shift : ∀ (s : List Rec) (i p : Nat),
    idxGo (i + 1) (p + 1) s = idxGo i p s := by
  intro s
  induction s with
  | nil => intro i p; rfl
  | cons r rs ih =>
    intro i p
    by_cases h : p = i
    · simp [idxGo, h]
    · have h2 : ¬(p + 1 = i + 1) := by omega
      simp [idxGo, h, h2, ih]

/-- Claim C4: for every stream and non-negative index, Index Search writes
exactly the record at zero-based position `idx` (nothing when the stream
is shorter), its boolean result is true exactly when that position exists,
and it stops immediately after the written record, leaving the rest of
the stream unconsumed. -/
theorem index_search_characterization :
    ∀ (idx : Nat) (stream : List Rec),
      IndexSearch.scan idx stream =
        ((stream.drop idx).take 1, decide (idx < stream.length),
         stream.drop (idx + 1)) := by
  intro idx stream
  induction stream generalizing idx with
  | nil => simp [IndexSearch.scan, idxGo]
  | cons r rs ih =>
    cases idx with
    | zero => simp [IndexSearch.scan, idxGo]
    | succ i =>
      have h : ¬((0 : Nat) = i + 1) := by omega
      have := ih i
      rw [IndexSearch.scan] at this ⊢
      simp only [idxGo, h, if_false]
      rw [idxGo_shift rs i 0, this]
      simp [Nat.succ_lt_succ_iff]

/-- Claim C9: the overall process signals failure iff the scan's boolean
result is false and missing-target tolerance was not requested; with
tolerance requested the process succeeds regardless of the result. -/
theorem exit_behavior :
    ∀ (scan_result ignore_missing : Bool),
      mainSignalsFailure scan_result ignore_missing = true ↔
        (scan_result = false ∧ ignore_missing = false) := by
  decide

/-- Witness for claim C9 at a concrete input: a false scan result without
tolerance signals failure. -/
theorem exit_behavior_witness : mainSignalsFailure false false = true :=
  (exit_behavior false false).mpr ⟨rfl, rfl⟩

/-- Claim C5 failing input: on the empty stream, Range Search with the
start bound omitted returns found = true (when stop is also omitted),
while Range Search with start = 0 returns found = false, so the two
configurations are not equivalent even though the usage text says a
missing start implies 0. -/
theorem range_default_start_divergence :
    RangeSearch.scan none none ([] : List Rec) = ([], true) ∧
    RangeSearch.scan (some 0) none ([] : List Rec) = ([], false) := by
  constructor <;> rfl

/-- Claim C6: `WordRegularExpressionMatch` is `RegularExpressionMatch` on
the pattern wrapped with the word-boundary template, and on the concrete
examples the pattern `cat` matches the label `the cat sat` but not the
label `category`. -/
theorem word_regex_wrapping :
    (∀ (r : Rx) (label : String),
      WordRegularExpressionMatch r label =
        RegularExpressionMatch (wordWrap r) label) ∧
    WordRegularExpressionMatch (litStr ("cat")) ("the cat sat") = true ∧
    WordRegularExpressionMatch (litStr ("cat")) ("category") = false := by
  refine ⟨fun r label => rfl, by decide, by decide⟩

lemma sepSearch_take (l : List Char) :
    (match sepSearch l with
     | some i => l.take i
     | none => l) =
      l.takeWhile (fun c => !(c == ' ' || c == '\t')) := by
  induction l with
  | nil => rfl
  | cons c cs ih =>
    by_cases hb : (c == ' ' || c == '\t') = true
    · rw [@List.takeWhile_cons_of_neg _ (fun c => !(c == ' ' || c == '\t')) c cs
        (by show ¬(!(c == ' ' || c == '\t')) = true; rw [hb]; simp)]
      simp only [sepSearch, hb, if_true, List.take_zero]
    · have hb2 : (c == ' ' || c == '\t') = false := by
        revert hb; cases (c == ' ' || c == '\t') <;> simp
      rw [@List.takeWhile_cons_of_pos _ (fun c => !(c == ' ' || c == '\t')) c cs
        (by show (!(c == ' ' || c == '\t')) = true; rw [hb2]; rfl)]
      cases hs : sepSearch cs with
      | none =>
        rw [hs] at ih
        have ih2 : cs = cs.takeWhile (fun c => !(c == ' ' || c == '\t')) := ih
        simp only [sepSearch, hb2, Bool.false_eq_true, if_false, hs,
          Option.map_none']
        rw [← ih2]
      | some i =>
        rw [hs] at ih
        have ih2 : cs.take i = cs.takeWhile (fun c => !(c == ' ' || c == '\t')) :=
          ih
        simp only [sepSearch, hb2, Bool.false_eq_true, if_false, hs,
          Option.map_some']
        rw [List.take_succ_cons, ← ih2]

lemma slsGo_written_sublist (m : Matcher) (reuse_match : Bool) :
    ∀ (s : List Rec) (found : Bool),
      (slsGo m reuse_match found s).1.Sublist s := by
  intro s
  induction s with
  | nil => intro found; simp [slsGo]
  | cons r rs ih =>
    intro found
    by_cases h : m r.1
    · cases reuse_match with
      | false => simp only [slsGo, h, if_true]; exact (List.nil_sublist rs).cons₂ r
      | true => simp only [slsGo, h, if_true]; exact (ih true).cons₂ r
    · simp only [slsGo, h, if_false]
      exact (ih found).cons r

/-- Claim C7: the id-only Label-Filter Adapter evaluates the wrapped
matcher on the label truncated at the first space or tab (the label
unchanged if none occurs); truncation affects matching only, since every
written record is a record of the stream with its full original label;
and on the concrete example, ExactMatch of `seq1` on the label
`seq1 extra info` is false without truncation and true with it. -/
theorem id_only_truncation :
    (∀ (m : Matcher) (value : String),
      id_filter m value =
        m (String.mk
            (value.data.takeWhile (fun c => !(c == ' ' || c == '\t'))))) ∧
    (∀ (m : Matcher) (reuse_match : Bool) (stream : List Rec),
      (SingleLabelSearch.scan (id_filter m) reuse_match stream).1.Sublist
        stream) ∧
    ExactMatch ("seq1") ("seq1 extra info") = false ∧
    id_filter (ExactMatch ("seq1")) ("seq1 extra info") = true := by
  refine ⟨fun m value => ?_, fun m reuse_match stream => ?_, by decide, by decide⟩
  · have h := sepSearch_take value.data
    rw [id_filter]
    cases hs : sepSearch value.data with
    | none =>
      rw [hs] at h
      exact congrArg m (by rw [← h])
    | some i =>
      rw [hs] at h
      exact congrArg m (congrArg String.mk h)
  · exact slsGo_written_sublist (id_filter m) reuse_match stream false

lemma rangeGo_inside (start stop : Int) (h1 : start < stop) :
    ∀ (s : List Rec) (pos : Int), start ≤ pos + 1 →
      rangeGo (some start) (some stop) pos s =
        (s.take (stop - (pos + 1)).toNat,
         decide (stop ≤ pos + 1 + s.length)) := by
  intro s
  induction s with
  | nil =>
    intro pos hpos
    simp only [rangeGo, Option.any_some, decide_eq_true_eq, List.length_nil,
      List.take_nil, Nat.cast_zero, add_zero]
    split_ifs with h2 h3
    · simp only [Prod.mk.injEq, true_and]
      exact (decide_eq_false (by omega)).symm
    · simp only [Prod.mk.injEq, true_and]
      exact (decide_eq_false (by omega)).symm
    · simp only [Prod.mk.injEq, true_and]
      exact (decide_eq_true (by omega)).symm
  | cons r rs ih =>
    intro pos hpos
    simp only [rangeGo, Option.any_some, Option.all_some, decide_eq_true_eq,
      List.length_cons]
    split_ifs with h2
    · refine Prod.ext ?_ ?_
      · show ([] : List Rec) = _
        rw [show (stop - (pos + 1)).toNat = 0 by omega, List.take_zero]
      · show true = _
        exact (decide_eq_true (by push_cast; omega)).symm
    · rw [ih (pos + 1) (by omega)]
      refine Prod.ext ?_ ?_
      · show r :: List.take (stop - (pos + 1 + 1)).toNat rs = _
        rw [show (stop - (pos + 1)).toNat = (stop - (pos + 1 + 1)).toNat + 1 by
          omega, List.take_succ_cons]
      · show decide (stop ≤ pos + 1 + 1 + (rs.length : Int)) = _
        exact decide_eq_decide.mpr (by push_cast; omega)

lemma rangeGo_before (start stop : Int) (h1 : start < stop) :
    ∀ (s : List Rec) (pos : Int), pos + 1 ≤ start →
      rangeGo (some start) (some stop) pos s =
        ((s.drop (start - (pos + 1)).toNat).take (stop - start).toNat,
         decide (stop ≤ pos + 1 + s.length)) := by
  intro s
  induction s with
  | nil =>
    intro pos hpos
    simp only [rangeGo, Option.any_some, decide_eq_true_eq, List.length_nil,
      List.drop_nil, List.take_nil, Nat.cast_zero, add_zero]
    split_ifs with h2 h3
    · simp only [Prod.mk.injEq, true_and]
      exact (decide_eq_false (by omega)).symm
    · exact absurd (by omega) h2
    · exact absurd (by omega) h2
  | cons r rs ih =>
    intro pos hpos
    simp only [rangeGo, Option.any_some, Option.all_some, decide_eq_true_eq,
      List.length_cons]
    split_ifs with h2 h3
    · exact absurd h2 (by omega)
    · have heq : pos + 1 = start := by omega
      rw [rangeGo_inside start stop h1 rs (pos + 1) (by omega)]
      refine Prod.ext ?_ ?_
      · show r :: List.take (stop - (pos + 1 + 1)).toNat rs = _
        rw [show (start - (pos + 1)).toNat = 0 by omega, List.drop_zero,
          show (stop - start).toNat = (stop - (pos + 1 + 1)).toNat + 1 by omega,
          List.take_succ_cons]
      · show decide (stop ≤ pos + 1 + 1 + (rs.length : Int)) = _
        exact decide_eq_decide.mpr (by push_cast; omega)
    · rw [ih (pos + 1) (by omega)]
      refine Prod.ext ?_ ?_
      · show (List.drop (start - (pos + 1 + 1)).toNat rs).take
            (stop - start).toNat = _
        rw [show (start - (pos + 1)).toNat = (start - (pos + 1 + 1)).toNat + 1 by
          omega, List.drop_succ_cons]
      · show decide (stop ≤ pos + 1 + 1 + (rs.length : Int)) = _
        exact decide_eq_decide.mpr (by push_cast; omega)

/-- Claim C1: for every stream and explicitly given bounds with
`stop > start >= 0`, Range Search writes exactly the records at positions
`p` with `start <= p < stop` in stream order, and its boolean result is
false iff the stream ended before position `start` was reached or before
position `stop - 1` was reached. -/
theorem range_search_explicit_bounds (start stop : Int) (stream : List Rec)
    (h0 : 0 ≤ start) (h1 : start < stop) :
    (RangeSearch.scan (some start) (some stop) stream).1 =
      (stream.drop start.toNat).take (stop - start).toNat ∧
    ((RangeSearch.scan (some start) (some stop) stream).2 = false ↔
      ((stream.length : Int) ≤ start ∨ (stream.length : Int) < stop)) := by
  have h := rangeGo_before start stop h1 stream (-1) (by omega)
  rw [RangeSearch.scan, h]
  constructor
  · show (stream.drop (start - (-1 + 1)).toNat).take (stop - start).toNat = _
    rw [show start - (-1 + 1) = start by omega]
  · show decide (stop ≤ -1 + 1 + (stream.length : Int)) = false ↔ _
    rw [decide_eq_false_iff_not]
    omega

/-- Witness for claim C1 at the spec's concrete example: Range Search with
start 1 and stop 3 on a four-record stream writes the records at
positions 1 and 2 and reports found = true. -/
theorem range_search_explicit_bounds_witness :
    ((0 : Int) ≤ 1 ∧ (1 : Int) < 3) ∧
    ((RangeSearch.scan (some 1) (some 3)
        [(("A" : String), ([] : List String)), ("B", []), ("C", []),
          ("D", [])]).1 =
      ([(("A" : String), ([] : List String)), ("B", []), ("C", []),
          ("D", [])].drop (1 : Int).toNat).take ((3 : Int) - 1).toNat ∧
     ((RangeSearch.scan (some 1) (some 3)
        [(("A" : String), ([] : List String)), ("B", []), ("C", []),
          ("D", [])]).2 = false ↔
       (([(("A" : String), ([] : List String)), ("B", []), ("C", []),
           ("D", [])].length : Int) ≤ 1 ∨
        ([(("A" : String), ([] : List String)), ("B", []), ("C", []),
            ("D", [])].length : Int) < 3))) :=
  ⟨⟨by decide, by decide⟩,
   range_search_explicit_bounds 1 3
     [(("A" : String), ([] : List String)), ("B", []), ("C", []), ("D", [])]
     (by decide) (by decide)⟩

lemma mlsGo_written_sublist (reuse_matches : Bool) :
    ∀ (s : List Rec) (ms : List Matcher) (fd : List Bool),
      (mlsGo reuse_matches ms fd s).written.Sublist s := by
  intro s
  induction s with
  | nil => intro ms fd; exact List.Sublist.refl []
  | cons r rs ih =>
    intro ms fd
    cases hf : findMatch r.1 ms with
    | none =>
      simp only [mlsGo, hf]
      split_ifs with he
      · exact (List.nil_sublist rs).cons r
      · exact (ih ms fd).cons r
    | some i =>
      simp only [mlsGo, hf]
      split_ifs with hr he he
      · exact (List.nil_sublist rs).cons₂ r
      · exact (ih ms (fd.set i true)).cons₂ r
      · exact (List.nil_sublist rs).cons₂ r
      · exact (ih (ms.eraseIdx i) (fd.eraseIdx i)).cons₂ r

/-- Claim C10: during a Multi-Label Search scan every input record is
written at most once (the written records form a sublist of the stream,
without duplication of any consumed record), because matcher evaluation
for a record stops at the first matching matcher; in particular a record
whose label is matched by two matchers of the collection is written

exactly once. -/
theorem multiple_label_write_at_most_once :
    (∀ (reuse_matches : Bool) (ms : List Matcher) (stream : List Rec),
      (MultipleLabelSearch.scan reuse_matches ms stream).written.Sublist
        stream) ∧
    (MultipleLabelSearch.scan false
        [fun _ => true, fun _ => true]
        [(("r" : String), ([] : List String))]).written =
      [(("r" : String), ([] : List String))] :=
  ⟨fun reuse_matches ms stream => mlsGo_written_sublist reuse_matches stream ms _,
   rfl⟩

lemma findMatch_lt_length :
    ∀ (ms : List Matcher) (label : String) (i : Nat),
      findMatch label ms = some i → i < ms.length := by
  intro ms
  induction ms with
  | nil => intro label i h; simp [findMatch] at h
  | cons m ms2 ih =>
    intro label i h
    by_cases hm : m label
    · simp only [findMatch, hm, if_true, Option.some.injEq] at h
      simp [← h]
    · simp only [findMatch, hm, Bool.false_eq_true, if_false] at h
      cases hj : findMatch label ms2 with
      | none => rw [hj] at h; simp at h
      | some j =>
        rw [hj] at h
        simp only [Option.map_some', Option.some.injEq] at h
        have := ih label j hj
        simp only [List.length_cons]
        omega

lemma eraseIdx_replicate_false :
    ∀ (n i : Nat), i < n →
      (List.replicate n false).eraseIdx i = List.replicate (n - 1) false := by
  intro n
  induction n with
  | zero => intro i h; omega
  | succ k ihn =>
    intro i h
    cases i with
    | zero => simp [List.replicate_succ]
    | succ j =>
      simp only [List.replicate_succ, List.eraseIdx_cons_succ, Nat.add_sub_cancel]
      rw [ihn j (by omega)]
      cases k with
      | zero => omega
      | succ k2 => simp [List.replicate_succ]

lemma all_replicate_false :
    ∀ (n : Nat), (List.replicate n false).all id = decide (n = 0) := by
  intro n
  cases n with
  | zero => rfl
  | succ k => simp [List.replicate_succ]

lemma mlsGo_no_matchers (reuse_matches : Bool) (fd : List Bool) :
    ∀ (s : List Rec),
      (mlsGo reuse_matches [] fd s).written = [] ∧
      (mlsGo reuse_matches [] fd s).found = fd.all id := by
  intro s
  cases s with
  | nil => exact ⟨rfl, rfl⟩
  | cons r rs => exact ⟨rfl, rfl⟩

lemma mlsGo_exact_char :
    ∀ (s : List Rec) (ms : List Matcher),
      ((mlsGo false ms (List.replicate ms.length false) s).found = true ↔
        (mlsGo false ms (List.replicate ms.length false) s).live = []) ∧
      (mlsGo false ms (List.replicate ms.length false) s).written.length +
          (mlsGo false ms (List.replicate ms.length false) s).live.length =
        ms.length := by
  intro s
  induction s with
  | nil =>
    intro ms
    simp only [mlsGo, all_replicate_false, decide_eq_true_eq, List.length_nil]
    exact ⟨List.length_eq_zero, by omega⟩
  | cons r rs ih =>
    intro ms
    cases hf : findMatch r.1 ms with
    | none =>
      by_cases he : ms.isEmpty
      · have hms : ms = [] := by
          cases ms with
          | nil => rfl
          | cons a as => simp [List.isEmpty] at he
        subst hms
        simp [mlsGo, findMatch]
      · simp only [mlsGo, hf, he, Bool.false_eq_true, if_false]
        exact ih ms
    | some i =>
      have hi : i < ms.length := findMatch_lt_length ms r.1 i hf
      by_cases he : (ms.eraseIdx i).isEmpty
      · have hms : ms.eraseIdx i = [] := by
          cases hcase : ms.eraseIdx i with
          | nil => rfl
          | cons a as => rw [hcase] at he; simp [List.isEmpty] at he
        have hlen : ms.length = 1 := by
          have := congrArg List.length hms
          rw [List.length_eraseIdx] at this
          simp [hi] at this
          omega
        have hempt : ([] : List Matcher).isEmpty = true := rfl
        simp only [mlsGo, hf, Bool.false_eq_true, if_false,
          eraseIdx_replicate_false ms.length i hi, hms, hempt, if_true,
          all_replicate_false, decide_eq_true_eq, List.length_cons,
          List.length_nil]
        refine ⟨?_, ?_⟩
        · simp [hlen]
        · omega
      · have hlen : (ms.eraseIdx i).length = ms.length - 1 := by
          rw [List.length_eraseIdx]
          simp [hi]
        have h2 := ih (ms.eraseIdx i)
        rw [hlen] at h2
        simp only [mlsGo, hf, Bool.false_eq_true, if_false, he,
          eraseIdx_replicate_false ms.length i hi, List.length_cons]
        refine ⟨h2.1, ?_⟩
        omega

lemma mlsGo_exact_append :
    ∀ (s : List Rec) (ms : List Matcher) (fd : List Bool) (t : List Rec),
      (mlsGo false ms fd s).live = [] →
        (mlsGo false ms fd (s ++ t)).written = (mlsGo false ms fd s).written ∧
        (mlsGo false ms fd (s ++ t)).found = (mlsGo false ms fd s).found := by
  intro s
  induction s with
  | nil =>
    intro ms fd t hlive
    have hms : ms = [] := hlive
    subst hms
    have h := mlsGo_no_matchers false fd t
    simp only [List.nil_append]
    exact ⟨h.1, h.2⟩
  | cons r rs ih =>
    intro ms fd t hlive
    cases hf : findMatch r.1 ms with
    | none =>
      by_cases he : ms.isEmpty
      · have hms : ms = [] := by
          cases ms with
          | nil => rfl
          | cons a as => simp [List.isEmpty] at he
        subst hms
        exact ⟨rfl, rfl⟩
      · have hlive2 : (mlsGo false ms fd rs).live = [] := by
          simpa [mlsGo, hf, he] using hlive
        have h := ih ms fd t hlive2
        simp only [List.cons_append, mlsGo, hf, he, Bool.false_eq_true, if_false]
        exact h
    | some i =>
      by_cases he : (ms.eraseIdx i).isEmpty
      · simp [List.cons_append, mlsGo, hf, he]
      · have hlive2 :
            (mlsGo false (ms.eraseIdx i) (fd.eraseIdx i) rs).live = [] := by
          simpa [mlsGo, hf, he] using hlive
        have h := ih (ms.eraseIdx i) (fd.eraseIdx i) t hlive2
        simp only [List.cons_append, mlsGo, hf, he, Bool.false_eq_true, if_false]
        simp [h.1, h.2]

/-- Claim C2: in exact-label mode (`reuse_matches = false`) Multi-Label
Search returns true iff every originally requested target was matched at
least once, where — per the spec — a target counts as matched exactly
when its matcher was removed from the live collection after its first
match, i.e. the final live collection is empty; each requested target
selects at most one record (writes plus surviving matchers add up to the
requested count), written records are stream records in order, the scan
stops early once all targets are found (appending further records changes
nothing), and with one absent target the result is false while the
records of the other targets are still written. -/
theorem multi_label_search_exact_mode :
    (∀ (ms : List Matcher) (stream : List Rec),
      ((MultipleLabelSearch.scan false ms stream).found = true ↔
        (MultipleLabelSearch.scan false ms stream).live = []) ∧
      (MultipleLabelSearch.scan false ms stream).written.length +
          (MultipleLabelSearch.scan false ms stream).live.length =
        ms.length ∧
      (MultipleLabelSearch.scan false ms stream).written.Sublist stream ∧
      (∀ (t : List Rec),
        (MultipleLabelSearch.scan false ms stream).live = [] →
          (MultipleLabelSearch.scan false ms (stream ++ t)).written =
              (MultipleLabelSearch.scan false ms stream).written ∧
            (MultipleLabelSearch.scan false ms (stream ++ t)).found =
              (MultipleLabelSearch.scan false ms stream).found)) ∧
    ((MultipleLabelSearch.scan false
        [ExactMatch ("a"), ExactMatch ("b"), ExactMatch ("c")]
        [(("a" : String), ["A"]), ("x", []), ("c", ["C"])]).written =
          [(("a" : String), ["A"]), ("c", ["C"])] ∧
      (MultipleLabelSearch.scan false
        [ExactMatch ("a"), ExactMatch ("b"), ExactMatch ("c")]
        [(("a" : String), ["A"]), ("x", []), ("c", ["C"])]).found = false) :=
  ⟨fun ms stream =>
    ⟨(mlsGo_exact_char stream ms).1,
     (mlsGo_exact_char stream ms).2,
     mlsGo_written_sublist false stream ms _,
     fun t h => mlsGo_exact_append stream ms _ t h⟩,
   by decide, by decide⟩

/-- Witness for claim C2 at a concrete input: after the single requested
label is found the live collection is empty, and appending a further
record to the stream leaves the written output unchanged. -/
theorem multi_label_search_exact_mode_witness :
    (MultipleLabelSearch.scan false [ExactMatch ("a")]
        [(("a" : String), ([] : List String))]).live = [] ∧
    (MultipleLabelSearch.scan false [ExactMatch ("a")]
        ([(("a" : String), ([] : List String))] ++ [("z", [])])).written =
      (MultipleLabelSearch.scan false [ExactMatch ("a")]
        [(("a" : String), ([] : List String))]).written :=
  ⟨rfl,
   ((multi_label_search_exact_mode.1 [ExactMatch ("a")]
       [(("a" : String), ([] : List String))]).2.2.2 [("z", [])] rfl).1⟩

lemma loadGo_ok_iff :
    ∀ (rest : List String) (acc : List String), acc.Nodup →
      ∀ (ls : List String),
        loadGo acc rest = Except.ok ls ↔
          (ls = acc ++ rest.map safe_rstrip ∧ ls.Nodup ∧ ls ≠ []) := by
  intro rest
  induction rest with
  | nil =>
    intro acc hnd ls
    simp only [loadGo, List.map_nil, List.append_nil]
    by_cases hl : acc.length = 0
    · have hacc : acc = [] := List.length_eq_zero.mp hl
      subst hacc
      rw [if_pos hl]
      constructor
      · intro h; exact Except.noConfusion h
      · rintro ⟨h1, _, h3⟩; exact absurd h1 h3
    · have hne : acc ≠ [] := by
        intro h; subst h; simp at hl
      rw [if_neg hl]
      simp only [Except.ok.injEq]
      constructor
      · rintro rfl
        exact ⟨rfl, hnd, hne⟩
      · rintro ⟨h1, _, _⟩
        exact h1.symm
  | cons line rest2 ihr =>
    intro acc hnd ls
    simp only [loadGo, List.map_cons]
    by_cases hc : acc.contains (safe_rstrip line) = true
    · rw [if_pos hc]
      have hmem : safe_rstrip line ∈ acc := by
        simpa [List.contains] using hc
      constructor
      · intro h; exact Except.noConfusion h
      · rintro ⟨h1, h2, _⟩
        exfalso
        rw [h1, List.nodup_append] at h2
        exact h2.2.2 hmem (List.mem_cons_self _ _)
    · rw [if_neg hc]
      have hmem : safe_rstrip line ∉ acc := by
        intro hm
        exact hc (by simpa [List.contains] using hm)
      have hnd2 : (acc ++ [safe_rstrip line]).Nodup := by
        rw [List.nodup_append]
        refine ⟨hnd, List.nodup_singleton _, ?_⟩
        intro a ha hb
        rw [List.mem_singleton] at hb
        subst hb
        exact hmem ha
      rw [ihr (acc ++ [safe_rstrip line]) hnd2 ls, List.append_assoc,
        List.singleton_append]

/-- Claim C8 (amended): loading labels from a file succeeds exactly when
the stripped lines are pairwise distinct and at least one line is present,
and then yields the set of those labels (in insertion order, duplicates
never retained); a duplicated label, or a file with no lines, is a fatal
configuration error. -/
theorem load_labels_ok_iff :
    ∀ (lines labels : List String),
      load_labels lines = Except.ok labels ↔
        (labels = lines.map safe_rstrip ∧ labels.Nodup ∧ labels ≠ []) := by
  intro lines labels
  have h := loadGo_ok_iff lines [] List.nodup_nil labels
  simpa [load_labels] using h

/-- Witness for claim C8 at a concrete input: a two-line label file loads
successfully into the two distinct labels. -/
theorem load_labels_ok_iff_witness :
    load_labels [("a\n"), ("b\n")] = Except.ok [("a" : String), ("b")] :=
  (load_labels_ok_iff [("a\n"), ("b\n")] [("a" : String), ("b")]).mpr
    ⟨by decide, by decide, by decide⟩

/-- Counterexample to claim C8 as stated: a label file consisting of one
blank line is not rejected; it loads successfully into a label set that
contains the empty string, so the loaded labels are not all non-empty. -/
theorem load_labels_empty_label_counterexample :
    load_labels [("\n")] = Except.ok [("" : String)] ∧
    ("" : String) ∈ [("" : String)] ∧ ("" : String).length = 0 :=
  ⟨rfl, by simp, rfl⟩
